import Mathlib

/-!
Verification of the blogger-editor-widget core: the HTML exporter
(`export.js`), the URL validator and escaping helpers (`utils.js`), and the
statistics calculator (`stats.js`).  All definitions are shallow embeddings
of the JavaScript sources; strings are modelled as Lean `String`
(lists of Unicode scalar values).
-/

namespace BloggerEditor

/-! ## Character classes (utils.js REGEX patterns, JS `\s`) -/
/-- The JavaScript `\s` character class (ECMA-262 WhiteSpace ∪ LineTerminator),
used by `String.prototype.trim`, `split(/\s+/)` and `replace(/\s/g, '')`. -/
def jsIsSpace (c : Char) : Bool :=
  c.toNat = 0x9 || c.toNat = 0xA || c.toNat = 0xB || c.toNat = 0xC ||
  c.toNat = 0xD || c.toNat = 0x20 || c.toNat = 0xA0 || c.toNat = 0x1680 ||
  (0x2000 ≤ c.toNat && c.toNat ≤ 0x200A) || c.toNat = 0x2028 ||
  c.toNat = 0x2029 || c.toNat = 0x202F || c.toNat = 0x205F ||
  c.toNat = 0x3000 || c.toNat = 0xFEFF

/-- utils.js `REGEX.cjk`: `[一-鿿㐀-䶿぀-ゟ゠-ヿ가-힯]`. -/
def isCJKChar (c : Char) : Bool :=
  (0x4e00 ≤ c.toNat && c.toNat ≤ 0x9fff) ||
  (0x3400 ≤ c.toNat && c.toNat ≤ 0x4dbf) ||
  (0x3040 ≤ c.toNat && c.toNat ≤ 0x309f) ||
  (0x30a0 ≤ c.toNat && c.toNat ≤ 0x30ff) ||
  (0xac00 ≤ c.toNat && c.toNat ≤ 0xd7af)

/-- utils.js `REGEX.zeroWidth`: `[​-‍﻿]`. -/
def isZeroWidth (c : Char) : Bool :=
  (0x200B ≤ c.toNat && c.toNat ≤ 0x200D) || c.toNat = 0xFEFF

/-- `String.prototype.trim` on a character list: drop JS whitespace from both ends. -/
def trimList (cs : List Char) : List Char :=
  ((cs.dropWhile jsIsSpace).reverse.dropWhile jsIsSpace).reverse

/-- `String.prototype.trim`. -/
def jsTrimS (s : String) : String := ⟨trimList s.data⟩

/-! ## Escaping (utils.js `escapeHTML`, `escapeAttribute`) -/
/-- Replacement performed by utils.js `escapeHTML` on a single character:
`REGEX.htmlEntities = /[&<>"']/g` with `HTML_ENTITY_MAP`. -/
def escChar (c : Char) : List Char :=
  if c = '&' then "&amp;".data
  else if c = '<' then "&lt;".data
  else if c = '>' then "&gt;".data
  else if c = '"' then "&quot;".data
  else if c = '\'' then "&#39;".data
  else [c]

/-- utils.js `escapeHTML`: single-pass global replace of `[&<>"']` by entities. -/
def escapeHTML (s : String) : String := ⟨s.data.flatMap escChar⟩

/-- One global `String.prototype.replace` of a character by a fixed string. -/
def replaceAllC (c : Char) (rep : List Char) : List Char → List Char
  | [] => []
  | x :: xs => (if x = c then rep else [x]) ++ replaceAllC c rep xs

/-- utils.js `escapeAttribute`: five sequential global replaces, `&` first. -/
def escapeAttribute (s : String) : String :=
  ⟨replaceAllC '>' "&gt;".data
    (replaceAllC '<' "&lt;".data
      (replaceAllC '\'' "&#39;".data
        (replaceAllC '"' "&quot;".data
          (replaceAllC '&' "&amp;".data s.data))))⟩

/-- Per-character view of `escapeAttribute`; the sequential replaces of the
source commute to this single pass because none of the five replacement
texts contains a character that a later pass rewrites. -/
def escAttrChar (c : Char) : List Char :=
  if c = '&' then "&amp;".data
  else if c = '"' then "&quot;".data
  else if c = '\'' then "&#39;".data
  else if c = '<' then "&lt;".data
  else if c = '>' then "&gt;".data
  else [c]

/-! ## URL validation (utils.js `validateURL`) -/
/-- Result record of utils.js `validateURL`. -/
structure URLResult where
  valid : Bool
  url : String
  error : String
deriving DecidableEq

/-- Result of a successful `new URL(...)` parse: the pieces read by `validateURL`. -/
structure ParsedURL where
  protocol : String
  href : String
deriving DecidableEq

def isAsciiAlpha (c : Char) : Bool :=
  ('a' ≤ c && c ≤ 'z') || ('A' ≤ c && c ≤ 'Z')

def isSchemeChar (c : Char) : Bool :=
  isAsciiAlpha c || ('0' ≤ c && c ≤ '9') || c = '+' || c = '-' || c = '.'

/-- WHATWG "special" schemes (require an authority/host). -/
def specialSchemes : List String := ["http", "https", "ws", "wss", "ftp", "file"]

/-- Modelled from the spec: the browser `new URL(input)` constructor (§4.1a
"Attempts to parse as an absolute URL"), which is a platform built-in and not
part of the repository sources.  Simplified WHATWG parsing: an absolute URL
needs a `scheme:` prefix (ASCII letter then letters/digits/`+`/`-`/`.`);
special schemes additionally need a non-empty host after optional slashes,
and serialize with a `/` path when the path is empty; other schemes keep
their opaque remainder verbatim.  Returns `none` where the constructor throws. -/
def jsURLParse (s : String) : Option ParsedURL :=
  let cs := s.data
  let sch := cs.takeWhile (· ≠ ':')
  if sch.length = cs.length then none
  else if sch.isEmpty || !(isAsciiAlpha (sch.headD 'a')) || !(sch.all isSchemeChar) then none
  else
    let scheme : String := ⟨sch.map Char.toLower⟩
    let rest := cs.drop (sch.length + 1)
    if scheme ∈ specialSchemes then
      let afterSlashes := rest.dropWhile (fun c => c = '/' || c = '\\')
      let host := afterSlashes.takeWhile (fun c => !(c = '/' || c = '\\' || c = '?' || c = '#'))
      let path := afterSlashes.drop host.length
      if host.isEmpty then none
      else some ⟨scheme ++ ":",
        scheme ++ "://" ++ (⟨host.map Char.toLower⟩ : String) ++
          (if path.isEmpty then "/" else ⟨path.map (fun c => if c = '\\' then '/' else c)⟩)⟩
    else
      some ⟨scheme ++ ":", scheme ++ ":" ++ ⟨rest⟩⟩

/-- `String.prototype.toLowerCase`, restricted to the ASCII mapping (the only
characters the blocklist prefixes consist of). -/
def jsToLower (s : String) : String := ⟨s.data.map Char.toLower⟩

/-- `a.startsWith(b)`. -/
def jsStartsWith (a b : String) : Bool := b.data.isPrefixOf a.data

/-- Does `pat` occur as a contiguous run inside the list? -/
def listHasRun (pat : List Char) : List Char → Bool
  | [] => pat.isEmpty
  | c :: rest => pat.isPrefixOf (c :: rest) || listHasRun pat rest

/-- `a.includes(b)`. -/
def jsIncludes (a b : String) : Bool := listHasRun b.data a.data

/-- utils.js `validateURL` (lines 139-173).  A `none` input models a
non-string argument; `some ""` is the empty string (both falsy in JS). -/
def validateURL (input : Option String) : URLResult :=
  match input with
  | none => ⟨false, "", "URL is required"⟩
  | some u =>
    if u = "" then ⟨false, "", "URL is required"⟩
    else
      let trimmed := jsTrimS u
      let lower := jsToLower trimmed
      if jsStartsWith lower "javascript:" || jsStartsWith lower "data:" ||
          jsStartsWith lower "vbscript:" then
        ⟨false, "", "Invalid URL protocol"⟩
      else
        match jsURLParse trimmed with
        | some parsed =>
          if parsed.protocol ∈ ["http:", "https:", "mailto:"] then
            ⟨true, parsed.href, ""⟩
          else
            ⟨false, "", "Only HTTP, HTTPS, and mailto links are allowed"⟩
        | none =>
          if !(jsIncludes trimmed "://") && !(jsStartsWith trimmed "mailto:") then
            match jsURLParse ("https://" ++ trimmed) with
            | some parsed => ⟨true, parsed.href, ""⟩
            | none => ⟨false, "", "Invalid URL format"⟩
          else ⟨false, "", "Invalid URL format"⟩

/-! ## Document model (Tiptap JSON, spec §3) -/
/-- Attributes of a mark; only `link` marks carry `href`. -/
structure MarkAttrs where
  href : Option String
deriving DecidableEq

/-- An inline mark on a text node. -/
structure Mark where
  type : String
  attrs : Option MarkAttrs
deriving DecidableEq

/-- Attributes of a block node; only `heading` reads `level`.
`none` models an absent or non-number `level`. -/
structure NodeAttrs where
  level : Option Int
deriving DecidableEq

/-- A Tiptap document node: a `type` tag with optional attributes, child
content, text payload and marks. -/
inductive Node where
  | mk (type : String) (attrs : Option NodeAttrs) (content : Option (List Node))
      (text : Option String) (marks : Option (List Mark))

def Node.type : Node → String
  | .mk t _ _ _ _ => t

def Node.attrs : Node → Option NodeAttrs
  | .mk _ a _ _ _ => a

def Node.content : Node → Option (List Node)
  | .mk _ _ c _ _ => c

def Node.text : Node → Option String
  | .mk _ _ _ txt _ => txt

def Node.marks : Node → Option (List Mark)
  | .mk _ _ _ _ m => m

/-- The root document passed to `generateCleanHTML` (a JSON object with a
`content` array); `none` content models an absent or non-array field. -/
structure Doc where
  content : Option (List Node)

/-! ## Inline mark composition (export.js `processText`, lines 119-166) -/
/-- The canonical ordering list `['link', 'bold', 'italic', 'code']` declared
inside the sort comparator. -/
def MARK_ORDER : List String := ["link", "bold", "italic", "code"]

/-- `Array.prototype.indexOf` (searching from index `i`). -/
def jsIndexOfAux (s : String) : List String → Int → Int
  | [], _ => -1
  | x :: xs, i => if x = s then i else jsIndexOfAux s xs (i + 1)

/-- The comparator key `order.indexOf(mark.type)`: 0..3 for the listed mark
types, -1 for any other type. -/
def markKey (m : Mark) : Int := jsIndexOfAux m.type MARK_ORDER 0

/-- Stable insertion of a mark in front of the first element with a
greater-or-equal key. -/
def insertKeyed (m : Mark) : List Mark → List Mark
  | [] => [m]
  | b :: bs => if markKey m ≤ markKey b then m :: b :: bs else b :: insertKeyed m bs

/-- `[...node.marks].sort((a, b) => order.indexOf(a.type) - order.indexOf(b.type))`:
JavaScript `Array.prototype.sort` is stable and the comparator is consistent,
so the result is the stable sort by `markKey`. -/
def sortMarks : List Mark → List Mark
  | [] => []
  | m :: ms => insertKeyed m (sortMarks ms)

/-- `(mark.attrs && mark.attrs.href) ? mark.attrs.href : ''` (an empty href
is falsy and also yields `''`). -/
def hrefOf (m : Mark) : String :=
  match m.attrs with
  | some a => match a.href with
    | some h => h
    | none => ""
  | none => ""

/-- The opening/closing tag pair a mark contributes inside the loop of
`processText`; `none` when the mark emits nothing (unknown type, or a `link`
whose href fails validation). -/
def markTags (m : Mark) : Option (String × String) :=
  if m.type = "bold" then some ("<strong>", "</strong>")
  else if m.type = "italic" then some ("<em>", "</em>")
  else if m.type = "code" then some ("<code>", "</code>")
  else if m.type = "link" then
    let validation := validateURL (some (hrefOf m))
    if validation.valid then
      some ("<a href=\"" ++ escapeAttribute validation.url ++ "\">", "</a>")
    else none
  else none

/-- The loop of `processText`: `open.push(...)` / `close.unshift(...)` per mark. -/
def buildTags : List Mark → List String × List String → List String × List String
  | [], acc => acc
  | m :: rest, acc =>
    buildTags rest (match markTags m with
      | some (o, c) => (acc.1 ++ [o], c :: acc.2)
      | none => acc)

/-- `Array.prototype.join('')`. -/
def strJoin : List String → String
  | [] => ""
  | s :: rest => s ++ strJoin rest

/-- `Array.prototype.join(sep)`. -/
def joinSep (sep : String) : List String → String
  | [] => ""
  | [s] => s
  | s :: rest => s ++ sep ++ joinSep sep rest

/-- export.js `processText` (lines 119-166). -/
def processText (n : Node) : String :=
  if n.type ≠ "text" then ""
  else match n.text with
    | none => ""
    | some s =>
      let text := escapeHTML s
      match n.marks with
      | none => text
      | some ms =>
        if ms.isEmpty then text
        else
          let sorted := sortMarks ms
          let oc := buildTags sorted ([], [])
          strJoin oc.1 ++ text ++ strJoin oc.2

/-- export.js `processInline` (lines 114-117). -/
def processInline : Option (List Node) → String
  | none => ""
  | some content => strJoin (content.map processText)

/-- A text node, as produced by the editing framework. -/
def textNode (s : String) (ms : List Mark) : Node :=
  Node.mk "text" none none (some s) (some ms)

/-- A plain text node with no marks. -/
def plainText (s : String) : Node := Node.mk "text" none none (some s) none

/-! ## Block-level traversal (export.js `processNode` and friends, lines 28-117)

`processParagraph` and `processHeading` only process inline content (text
leaves), so they are plain non-recursive definitions.  The recursive
handlers for lists, list items, blockquotes and unknown containers form a
mutual group over the node's `content` field. -/
/-- export.js `processParagraph` (lines 52-56), in terms of the node's
content.  `!content || !content.trim()` is equivalent to the trimmed
content being empty. -/
def paragraphOut (c : Option (List Node)) : String :=
  let content := processInline c
  if jsTrimS content = "" then "" else "<p>" ++ content ++ "</p>"

/-- export.js `processHeading` (lines 58-64). -/
def headingOut (a : Option NodeAttrs) (c : Option (List Node)) : String :=
  let level : Int := match a with
    | some na => match na.level with
      | some lvl => lvl
      | none => 2
    | none => 2
  let tag := if level = 3 then "h3" else "h2"
  let content := processInline c
  if jsTrimS content = "" then ""
  else "<" ++ tag ++ ">" ++ content ++ "</" ++ tag ++ ">"

mutual

/-- export.js `processNode` (lines 28-50): dispatch on `node.type`, with a
pass-through default for unknown container nodes. -/
def processNode : Node → String
  | Node.mk t a c txt m =>
    if t = "" then ""
    else if t = "paragraph" then paragraphOut c
    else if t = "heading" then headingOut a c
    else if t = "bulletList" then bulletListOut c
    else if t = "listItem" then listItemOut c
    else if t = "blockquote" then blockquoteOut c
    else if t = "text" then processText (Node.mk t a c txt m)
    else match c with
      | some l => strJoin ((processNodes l).filter (· ≠ ""))
      | none => ""
termination_by structural n => n

/-- export.js `processBulletList` (lines 66-73), on the node's content. -/
def bulletListOut : Option (List Node) → String
  | none => ""
  | some l =>
    if l.isEmpty then ""
    else
      let items := (processNodes l).filter (· ≠ "")
      if items.isEmpty then ""
      else "<ul>\n" ++ joinSep "\n" items ++ "\n</ul>"

/-- export.js `processListItem` (lines 75-94), on the node's content: the
loop pushes each child's contribution when it is a non-empty string. -/
def listItemOut : Option (List Node) → String
  | none => ""
  | some l =>
    let parts := (listItemParts l).filter (· ≠ "")
    if parts.isEmpty then "" else "<li>" ++ strJoin parts ++ "</li>"

/-- The per-child contribution inside `processListItem`'s loop.  For a
`bulletList` child the source calls `processBulletList(child)` directly;
`processNode` dispatches exactly that handler on such a child, so the branch
is folded into the generic call (see `listItemParts_bulletList`). -/
def listItemParts : List Node → List String
  | [] => []
  | ch :: rest =>
    (if ch.type = "paragraph" then processInline ch.content
     else processNode ch) :: listItemParts rest

/-- export.js `processBlockquote` (lines 96-112), on the node's content:
non-empty parts are joined with `'<br>'`. -/
def blockquoteOut : Option (List Node) → String
  | none => ""
  | some l =>
    let parts := (blockquoteParts l).filter (· ≠ "")
    if parts.isEmpty then "" else "<blockquote>" ++ joinSep "<br>" parts ++ "</blockquote>"

/-- The per-child contribution inside `processBlockquote`'s loop. -/
def blockquoteParts : List Node → List String
  | [] => []
  | ch :: rest =>
    (if ch.type = "paragraph" then processInline ch.content
     else processNode ch) :: blockquoteParts rest

/-- `node.content.map(processNode)`. -/
def processNodes : List Node → List String
  | [] => []
  | n :: ns => processNode n :: processNodes ns

end

/-- export.js `processParagraph` on a node. -/
def processParagraph (n : Node) : String := paragraphOut n.content

/-- export.js `processHeading` on a node. -/
def processHeading (n : Node) : String := headingOut n.attrs n.content

/-- export.js `processBulletList` on a node. -/
def processBulletList (n : Node) : String := bulletListOut n.content

/-- export.js `processListItem` on a node. -/
def processListItem (n : Node) : String := listItemOut n.content

/-- export.js `processBlockquote` on a node. -/
def processBlockquote (n : Node) : String := blockquoteOut n.content

/-- export.js `generateCleanHTML` (lines 13-26): top-level blocks processed,
non-empty results joined with newlines. -/
def generateCleanHTML (doc : Option Doc) : String :=
  match doc with
  | none => ""
  | some json =>
    match json.content with
    | none => ""
    | some nodes => joinSep "\n" ((processNodes nodes).filter (· ≠ ""))

def paraNode (children : List Node) : Node := Node.mk "paragraph" none (some children) none none

/-! ## Statistics (stats.js, utils.js helpers) -/
/-- utils.js `normalizeText`: strip zero-width characters. -/
def normalizeText (s : String) : String := ⟨s.data.filter (fun c => !isZeroWidth c)⟩

/-- utils.js `containsCJK`: `REGEX.cjk.test(text)`. -/
def containsCJK (s : String) : Bool := s.data.any isCJKChar

/-- utils.js `countCJK`: number of `REGEX.cjk` matches. -/
def countCJK (s : String) : Nat := (s.data.filter isCJKChar).length

/-- stats.js: `text.replace(/[CJK ranges]/g, ' ')`. -/
def cjkToSpace (s : String) : String := ⟨s.data.map (fun c => if isCJKChar c then ' ' else c)⟩

/-- `text.split(/\s+/)` up to empty pieces: splitting at every whitespace
character.  `/\s+/` collapses runs, so it produces fewer empty pieces, but
after the `filter(w => w.length > 0)` of stats.js the results agree. -/
def splitWsAux : List Char → List Char → List (List Char)
  | [], acc => [acc.reverse]
  | c :: rest, acc =>
    if jsIsSpace c then acc.reverse :: splitWsAux rest []
    else splitWsAux rest (c :: acc)

/-- `text.split(/\s+/).filter(w => w.length > 0).length`: the number of
maximal non-whitespace runs. -/
def wordCountOf (s : String) : Nat := ((splitWsAux s.data []).filter (· ≠ [])).length

/-- stats.js `calculateWordCount` (lines 35-46). -/
def calculateWordCount (s : String) : Nat :=
  if s = "" then 0
  else if containsCJK s then countCJK s + wordCountOf (cjkToSpace s)
  else wordCountOf s

/-- Result record of stats.js `calculateStats`. -/
structure StatsResult where
  words : Nat
  characters : Nat
  readingTimeMinutes : Nat
deriving DecidableEq

/-- stats.js `calculateStats` (lines 16-33).  A `none` input models a
non-string argument.  `Math.ceil(words / 200)` on a natural number of words
is the natural-number ceiling division, modelled as `(words + 199) / 200`. -/
def calculateStats (input : Option String) : StatsResult :=
  match input with
  | none => ⟨0, 0, 0⟩
  | some s =>
    if s = "" then ⟨0, 0, 0⟩
    else
      let normalized := normalizeText s
      let trimmed := jsTrimS normalized
      if trimmed = "" then ⟨0, 0, 0⟩
      else
        let characters := (trimmed.data.filter (fun c => !jsIsSpace c)).length
        let words := calculateWordCount trimmed
        ⟨words, characters, (words + 199) / 200⟩

/-! ## Lemmas about the mark sort -/
/-- The marks with a given comparator key, in original order. -/
def groupK (k : Int) (ms : List Mark) : List Mark := ms.filter (fun m => markKey m = k)

/-- `true* false*` shape check: once a `false` appears, no `true` may follow. -/
def flagsTrueThenFalse : List Bool → Bool
  | [] => true
  | true :: r => flagsTrueThenFalse r
  | false :: r => r.all (fun b => b = false)

/-! ## Claim C3: invalid link hrefs are dropped -/
/-- Keep a mark unless it is a `link` whose href fails `validateURL`. -/
def keepValidLink (x : Mark) : Bool :=
  !(x.type == "link" && !(validateURL (some (hrefOf x))).valid)

/-! ## Claim C4: canonical nesting of marks -/
/-- The canonical arrangement the spec promises: present marks in the order
`link`, `bold`, `italic`, `code`. -/
def canonicalMarkOrder (ms : List Mark) : List Mark :=
  ms.filter (fun m => m.type = "link") ++ ms.filter (fun m => m.type = "bold") ++
  ms.filter (fun m => m.type = "italic") ++ ms.filter (fun m => m.type = "code")

/-- The opening tag a listed mark contributes (`link` assumed valid). -/
def openTagFor (m : Mark) : String :=
  if m.type = "link" then
    "<a href=\"" ++ escapeAttribute (validateURL (some (hrefOf m))).url ++ "\">"
  else if m.type = "bold" then "<strong>"
  else if m.type = "italic" then "<em>"
  else if m.type = "code" then "<code>"
  else ""

/-- The closing tag a listed mark contributes. -/
def closeTagFor (m : Mark) : String :=
  if m.type = "link" then "</a>"
  else if m.type = "bold" then "</strong>"
  else if m.type = "italic" then "</em>"
  else if m.type = "code" then "</code>"
  else ""

/-! ## Claim C8: hybrid CJK / Western word counting -/
/-- Number of non-empty split pieces, with the accumulator of the splitter. -/
def tokenCount (cs : List Char) (acc : List Char) : Nat :=
  ((splitWsAux cs acc).filter (· ≠ [])).length

/-! ## Claim C1: output tag and escaping safety

To state C1 about the output *string*, we lex it: `tagNames` extracts the
name of every `<...>` span, and `textOKAux` checks that outside tag spans
there is no raw `<` or `>` and every `&` begins one of the five entities
the escapers emit (and that no tag span is left unterminated). -/
/-- The allowed tag set of the spec (§6). -/
def ALLOWED_TAGS : List String :=
  ["p", "h2", "h3", "ul", "li", "strong", "em", "a", "code", "blockquote"]

/-- The tag name of a `<...>` span: strip a leading `/`, take up to a space. -/
def nameFromBody (body : List Char) : String :=
  ⟨(match body with | '/' :: r => r | _ => body).takeWhile (· ≠ ' ')⟩

/-- Names of all complete `<...>` spans, scanning with the reversed
accumulated span body as state (`none` = outside a tag). -/
def tagNamesAux : List Char → Option (List Char) → List String
  | [], _ => []
  | c :: rest, none =>
    if c = '<' then tagNamesAux rest (some []) else tagNamesAux rest none
  | c :: rest, some acc =>
    if c = '>' then nameFromBody acc.reverse :: tagNamesAux rest none
    else tagNamesAux rest (some (c :: acc))

def tagNames (s : String) : List String := tagNamesAux s.data none

/-- The scanner state after consuming the input. -/
def tagScanState : List Char → Option (List Char) → Option (List Char)
  | [], st => st
  | c :: rest, none => tagScanState rest (if c = '<' then some [] else none)
  | c :: rest, some acc => tagScanState rest (if c = '>' then none else some (c :: acc))

/-- Does the list begin with one of the five entities the escapers emit? -/
def entityAt (cs : List Char) : Bool :=
  "amp;".data.isPrefixOf cs || "lt;".data.isPrefixOf cs || "gt;".data.isPrefixOf cs ||
  "quot;".data.isPrefixOf cs || "#39;".data.isPrefixOf cs

/-- Text-run safety scan (`inTag` state): outside tags, `<` only opens a
tag span, `>` never occurs raw, `&` must begin an entity; inside tags `<`
never occurs and the span must be closed by the end of input. -/
def textOKAux : List Char → Bool → Bool
  | [], inTag => !inTag
  | c :: rest, true =>
    if c = '<' then false
    else if c = '>' then textOKAux rest false
    else textOKAux rest true
  | c :: rest, false =>
    if c = '<' then textOKAux rest true
    else if c = '>' then false
    else if c = '&' then entityAt rest && textOKAux rest false
    else textOKAux rest false

def textRunsOK (s : String) : Bool := textOKAux s.data false

/-- Allowed output tag names: the spec's set plus the `<br>` separator. -/
def allowedBr (nm : String) : Bool := decide (nm ∈ ALLOWED_TAGS) || nm == "br"

/-- Safety of an HTML fragment at the character level. -/
def htmlOKL (l : List Char) : Prop :=
  (tagNamesAux l none).all allowedBr = true ∧ textOKAux l false = true ∧
  tagScanState l none = none

def htmlOK (s : String) : Prop := htmlOKL s.data

instance (l : List Char) : Decidable (htmlOKL l) := by
  unfold htmlOKL
  infer_instance

instance (s : String) : Decidable (htmlOK s) := by
  unfold htmlOK
  infer_instance

theorem replaceAllC_append (c : Char) (rep : List Char) (xs ys : List Char) :
    replaceAllC c rep (xs ++ ys) = replaceAllC c rep xs ++ replaceAllC c rep ys := by
  induction xs with
  | nil => rfl
  | cons x xs ih => simp [replaceAllC, ih]

theorem escapeAttribute_eq_flatMap (s : String) :
    escapeAttribute s = ⟨s.data.flatMap escAttrChar⟩ := by
  unfold escapeAttribute
  congr 1
  induction s.data with
  | nil => rfl
  | cons x xs ih =>
    show replaceAllC '>' _ (replaceAllC '<' _ (replaceAllC '\'' _ (replaceAllC '"' _
      ((if x = '&' then "&amp;".data else [x]) ++ replaceAllC '&' _ xs)))) = _
    rw [replaceAllC_append, replaceAllC_append, replaceAllC_append, replaceAllC_append]
    rw [ih]
    congr 1
    by_cases h1 : x = '&' <;> by_cases h2 : x = '"' <;> by_cases h3 : x = '\'' <;>
      by_cases h4 : x = '<' <;> by_cases h5 : x = '>' <;>
      simp_all [escAttrChar, replaceAllC]

example : (validateURL (some "ftp://x.com")).valid = false := by decide

example : (validateURL (some "javascript:alert(1)")).valid = false := by decide

example : validateURL (some "example.com") = ⟨true, "https://example.com/", ""⟩ := by decide

example : (validateURL (some "http://x.com")).valid = true := by decide

example : (validateURL (some "https://example.com")).url = "https://example.com/" := by decide

example : processText (textNode "a<b" [⟨"bold", none⟩]) = "<strong>a&lt;b</strong>" := by decide

example : processText (textNode "x" [⟨"code", none⟩, ⟨"bold", none⟩]) = "<strong><code>x</code></strong>" := by decide

example : processText (textNode "x" [⟨"link", some ⟨some "javascript:alert(1)"⟩⟩]) = "x" := by decide

example : processText (textNode "x" [⟨"bold", none⟩, ⟨"link", some ⟨some "example.com"⟩⟩]) =
    "<a href=\"https://example.com/\"><strong>x</strong></a>" := by decide

example : (sortMarks [⟨"bold", none⟩, ⟨"wavy", none⟩]).map Mark.type = ["wavy", "bold"] := by decide

/-- Faithfulness of the folded `bulletList` branch in `listItemParts`: on a
`bulletList` child, `processNode` is exactly `processBulletList`, as in the
source's explicit branch. -/
theorem listItemParts_bulletList (ch : Node) (h : ch.type = "bulletList") :
    processNode ch = bulletListOut ch.content := by
  obtain ⟨t, a, c, txt, m⟩ := ch
  simp only [Node.type] at h
  subst h
  simp [processNode, Node.content]

example : generateCleanHTML (some ⟨some [paraNode [plainText "hi"]]⟩) = "<p>hi</p>" := by decide

example : generateCleanHTML (some ⟨some
    [Node.mk "blockquote" none (some [paraNode [plainText "a"], paraNode [plainText "b"]]) none none]⟩) =
    "<blockquote>a<br>b</blockquote>" := by decide

example : processListItem (Node.mk "listItem" none (some [paraNode [plainText " "]]) none none) =
    "<li> </li>" := by decide

example : calculateStats (some "hello world") = ⟨2, 10, 1⟩ := by decide

example : calculateStats (some "hello 你好 world") = ⟨4, 12, 1⟩ := by decide

example : calculateStats (some "\u200B") = ⟨0, 0, 0⟩ := by decide

example : wordCountOf "\u200B" = 1 := by decide

theorem markKey_eq (m : Mark) :
    markKey m = if m.type = "link" then 0 else if m.type = "bold" then 1
      else if m.type = "italic" then 2 else if m.type = "code" then 3 else -1 := by
  simp only [markKey, MARK_ORDER, jsIndexOfAux]
  by_cases h1 : m.type = "link"
  · simp [h1]
  · by_cases h2 : m.type = "bold"
    · simp [h1, h2, Ne.symm h1]
    · by_cases h3 : m.type = "italic"
      · simp [h1, h2, h3, Ne.symm h1, Ne.symm h2]
      · by_cases h4 : m.type = "code"
        · simp [h1, h2, h3, h4, Ne.symm h1, Ne.symm h2, Ne.symm h3]
        · simp [h1, h2, h3, h4, Ne.symm h1, Ne.symm h2, Ne.symm h3, Ne.symm h4]

theorem markKey_cases (m : Mark) :
    markKey m = -1 ∨ markKey m = 0 ∨ markKey m = 1 ∨ markKey m = 2 ∨ markKey m = 3 := by
  rw [markKey_eq]; split_ifs <;> simp

theorem mem_groupK {a : Mark} {k : Int} {ms : List Mark} (h : a ∈ groupK k ms) :
    markKey a = k := by
  simp only [groupK, List.mem_filter, decide_eq_true_eq] at h
  exact h.2

theorem groupK_cons (k : Int) (m : Mark) (ms : List Mark) :
    groupK k (m :: ms) = if markKey m = k then m :: groupK k ms else groupK k ms := by
  simp only [groupK, List.filter_cons]
  split_ifs with h <;> simp_all

theorem insertKeyed_append (m : Mark) (A B : List Mark)
    (hA : ∀ a ∈ A, markKey a < markKey m)
    (hB : ∀ b ∈ B, markKey m ≤ markKey b) :
    insertKeyed m (A ++ B) = A ++ m :: B := by
  induction A with
  | nil =>
    cases B with
    | nil => rfl
    | cons b bs => simp [insertKeyed, hB b (by simp)]
  | cons a as ih =>
    have ha : ¬ markKey m ≤ markKey a := not_le.mpr (hA a (by simp))
    show (if markKey m ≤ markKey a then m :: a :: (as ++ B)
          else a :: insertKeyed m (as ++ B)) = a :: (as ++ m :: B)
    rw [if_neg ha, ih (fun x hx => hA x (by simp [hx]))]

/-- JavaScript's stable sort by comparator key, characterised as the
concatenation of the key groups in ascending key order: marks whose type is
not in `MARK_ORDER` (key -1) come first, then `link`, `bold`, `italic`,
`code`; within each group the original order is preserved. -/
theorem sortMarks_eq_groups (ms : List Mark) :
    sortMarks ms = groupK (-1) ms ++ groupK 0 ms ++ groupK 1 ms ++ groupK 2 ms ++ groupK 3 ms := by
  induction ms with
  | nil => rfl
  | cons m rest ih =>
    show insertKeyed m (sortMarks rest) = _
    rw [ih]
    rcases markKey_cases m with hk | hk | hk | hk | hk
    · rw [show groupK (-1) rest ++ groupK 0 rest ++ groupK 1 rest ++ groupK 2 rest ++ groupK 3 rest
          = [] ++ (groupK (-1) rest ++ groupK 0 rest ++ groupK 1 rest ++ groupK 2 rest ++ groupK 3 rest) by simp]
      rw [insertKeyed_append m _ _ (by simp)
        (by intro b hb
            simp only [List.append_assoc, List.mem_append] at hb
            rcases hb with h | h | h | h | h <;> rw [mem_groupK h, hk] <;> omega)]
      simp [groupK_cons, hk, List.append_assoc]
    · rw [show groupK (-1) rest ++ groupK 0 rest ++ groupK 1 rest ++ groupK 2 rest ++ groupK 3 rest
          = groupK (-1) rest ++ (groupK 0 rest ++ groupK 1 rest ++ groupK 2 rest ++ groupK 3 rest) by simp [List.append_assoc]]
      rw [insertKeyed_append m _ _
        (by intro a ha; rw [mem_groupK ha, hk]; omega)
        (by intro b hb
            simp only [List.append_assoc, List.mem_append] at hb
            rcases hb with h | h | h | h <;> rw [mem_groupK h, hk] <;> omega)]
      simp [groupK_cons, hk, List.append_assoc]
    · rw [show groupK (-1) rest ++ groupK 0 rest ++ groupK 1 rest ++ groupK 2 rest ++ groupK 3 rest
          = (groupK (-1) rest ++ groupK 0 rest) ++ (groupK 1 rest ++ groupK 2 rest ++ groupK 3 rest) by simp [List.append_assoc]]
      rw [insertKeyed_append m _ _
        (by intro a ha
            simp only [List.mem_append] at ha
            rcases ha with h | h <;> rw [mem_groupK h, hk] <;> omega)
        (by intro b hb
            simp only [List.append_assoc, List.mem_append] at hb
            rcases hb with h | h | h <;> rw [mem_groupK h, hk] <;> omega)]
      simp [groupK_cons, hk, List.append_assoc]
    · rw [show groupK (-1) rest ++ groupK 0 rest ++ groupK 1 rest ++ groupK 2 rest ++ groupK 3 rest
          = (groupK (-1) rest ++ groupK 0 rest ++ groupK 1 rest) ++ (groupK 2 rest ++ groupK 3 rest) by simp [List.append_assoc]]
      rw [insertKeyed_append m _ _
        (by intro a ha
            simp only [List.append_assoc, List.mem_append] at ha
            rcases ha with h | h | h <;> rw [mem_groupK h, hk] <;> omega)
        (by intro b hb
            simp only [List.mem_append] at hb
            rcases hb with h | h <;> rw [mem_groupK h, hk] <;> omega)]
      simp [groupK_cons, hk, List.append_assoc]
    · rw [show groupK (-1) rest ++ groupK 0 rest ++ groupK 1 rest ++ groupK 2 rest ++ groupK 3 rest
          = (groupK (-1) rest ++ groupK 0 rest ++ groupK 1 rest ++ groupK 2 rest) ++ groupK 3 rest by simp [List.append_assoc]]
      rw [insertKeyed_append m _ _
        (by intro a ha
            simp only [List.append_assoc, List.mem_append] at ha
            rcases ha with h | h | h | h <;> rw [mem_groupK h, hk] <;> omega)
        (by intro b hb; rw [mem_groupK hb, hk])]
      simp [groupK_cons, hk, List.append_assoc]

theorem buildTags_eq (ms : List Mark) (o c : List String) :
    buildTags ms (o, c) =
      (o ++ (ms.filterMap markTags).map Prod.fst,
       ((ms.filterMap markTags).map Prod.snd).reverse ++ c) := by
  induction ms generalizing o c with
  | nil => simp [buildTags]
  | cons m rest ih =>
    cases h : markTags m with
    | none => simp [buildTags, h, ih, List.filterMap_cons]
    | some p =>
      obtain ⟨po, pc⟩ := p
      simp [buildTags, h, ih, List.filterMap_cons, List.append_assoc]

/-- `processText` on a text node, characterised through the sorted tag pairs:
openings in sorted order, closings in exactly the reverse order. -/
theorem processText_textNode (s : String) (ms : List Mark) :
    processText (textNode s ms) =
      strJoin (((sortMarks ms).filterMap markTags).map Prod.fst) ++ escapeHTML s ++
        strJoin ((((sortMarks ms).filterMap markTags).map Prod.snd).reverse) := by
  cases ms with
  | nil => simp [processText, textNode, Node.type, Node.text, Node.marks, sortMarks, strJoin]
  | cons m rest =>
    simp only [processText, textNode, Node.type, Node.text, Node.marks]
    rw [if_neg (by simp)]
    simp only [List.isEmpty_cons, Bool.false_eq_true, if_false]
    rw [buildTags_eq]
    simp

theorem markKey_eq_zero_iff (m : Mark) : markKey m = 0 ↔ m.type = "link" := by
  rw [markKey_eq]; split_ifs <;> simp_all

theorem markKey_eq_one_iff (m : Mark) : markKey m = 1 ↔ m.type = "bold" := by
  rw [markKey_eq]; split_ifs <;> simp_all

theorem markKey_eq_two_iff (m : Mark) : markKey m = 2 ↔ m.type = "italic" := by
  rw [markKey_eq]; split_ifs <;> simp_all

theorem markKey_eq_three_iff (m : Mark) : markKey m = 3 ↔ m.type = "code" := by
  rw [markKey_eq]; split_ifs <;> simp_all

theorem markKey_eq_neg_iff (m : Mark) : markKey m = -1 ↔ ¬ m.type ∈ MARK_ORDER := by
  rw [markKey_eq]
  split_ifs with h1 h2 h3 h4 <;> simp_all [MARK_ORDER]

/-- The sort commutes with any filter on the marks (stability). -/
theorem sortMarks_filter (p : Mark → Bool) (ms : List Mark) :
    sortMarks (ms.filter p) = (sortMarks ms).filter p := by
  have hg : ∀ k, groupK k (ms.filter p) = (groupK k ms).filter p := by
    intro k
    simp only [groupK, List.filter_filter]
    exact List.filter_congr (fun a _ => by rw [Bool.and_comm])
  rw [sortMarks_eq_groups, sortMarks_eq_groups]
  simp [hg, List.filter_append]

theorem filterMap_filter_of_none {α β : Type} (f : α → Option β) (p : α → Bool)
    (l : List α) (h : ∀ x ∈ l, p x = false → f x = none) :
    (l.filter p).filterMap f = l.filterMap f := by
  induction l with
  | nil => rfl
  | cons x xs ih =>
    rw [List.filter_cons]
    by_cases hp : p x = true
    · simp only [hp, if_true, List.filterMap_cons]
      rw [ih (fun y hy => h y (by simp [hy]))]
    · have hpf : p x = false := by simpa using hp
      rw [if_neg (by simp [hpf]), List.filterMap_cons, h x (by simp) hpf]
      exact ih (fun y hy => h y (by simp [hy]))

theorem filterMap_eq_map_of {α β : Type} (f : α → Option β) (g : α → β)
    (l : List α) (h : ∀ x ∈ l, f x = some (g x)) : l.filterMap f = l.map g := by
  induction l with
  | nil => rfl
  | cons x xs ih =>
    rw [List.filterMap_cons, h x (by simp), List.map_cons]
    rw [ih (fun y hy => h y (by simp [hy]))]

/-! ## Claim C5: canonical ordering of marks -/
/-- Claim C5 (amended): JavaScript's stable sort with comparator
`order.indexOf(a.type) - order.indexOf(b.type)` arranges the marks as the
unlisted marks first (their `indexOf` is -1), then the `link`, `bold`,
`italic` and `code` marks, each group keeping the original relative order
(stable sort). -/
theorem sortMarks_unlisted_first_stable (ms : List Mark) :
    sortMarks ms =
      ms.filter (fun m => ¬ m.type ∈ MARK_ORDER) ++
      ms.filter (fun m => m.type = "link") ++ ms.filter (fun m => m.type = "bold") ++
      ms.filter (fun m => m.type = "italic") ++ ms.filter (fun m => m.type = "code") := by
  rw [sortMarks_eq_groups]
  congr 1
  · congr 1
    · congr 1
      · congr 1
        · exact List.filter_congr (fun a _ => by simp [markKey_eq_neg_iff])
        · exact List.filter_congr (fun a _ => by simp [markKey_eq_zero_iff])
      · exact List.filter_congr (fun a _ => by simp [markKey_eq_one_iff])
    · exact List.filter_congr (fun a _ => by simp [markKey_eq_two_iff])
  · exact List.filter_congr (fun a _ => by simp [markKey_eq_three_iff])

/-- Claim C5, counterexample: sorting `[bold, wavy]` puts the unlisted
`wavy` mark *before* the listed `bold` mark (its `indexOf` key is -1), so
marks outside the canonical list do not sort after all listed marks. -/
theorem sortMarks_unlisted_not_last :
    flagsTrueThenFalse ((sortMarks [⟨"bold", none⟩, ⟨"wavy", none⟩]).map
      (fun m => decide (m.type ∈ MARK_ORDER))) = false := by decide

theorem markTags_none_of_invalid_link {x : Mark} (h : keepValidLink x = false) :
    markTags x = none := by
  simp only [keepValidLink, Bool.not_eq_false', Bool.and_eq_true, beq_iff_eq,
    Bool.not_eq_true'] at h
  obtain ⟨ht, hv⟩ := h
  simp [markTags, ht, hv]

/-- Claim C3: a text node carrying a `link` mark whose href is missing or
fails URL validation renders exactly as if that (and any other invalid)
`link` mark were absent: no anchor is emitted, the escaped text and the
remaining marks are unchanged. -/
theorem invalid_link_renders_unlinked (s : String) (ms : List Mark) (m : Mark)
    (hm : m ∈ ms) (ht : m.type = "link")
    (hv : (validateURL (some (hrefOf m))).valid = false) :
    processText (textNode s ms) = processText (textNode s (ms.filter keepValidLink)) := by
  rw [processText_textNode, processText_textNode, sortMarks_filter]
  rw [filterMap_filter_of_none markTags keepValidLink (sortMarks ms)
    (fun x _ hx => markTags_none_of_invalid_link hx)]

/-- Witness for C3 at a concrete node: a `javascript:` href is rejected and
the bold mark alone is applied. -/
theorem invalid_link_renders_unlinked_witness :
    ((⟨"link", some ⟨some "javascript:alert(1)"⟩⟩ : Mark) ∈
        [(⟨"bold", none⟩ : Mark), ⟨"link", some ⟨some "javascript:alert(1)"⟩⟩]) ∧
    (validateURL (some (hrefOf ⟨"link", some ⟨some "javascript:alert(1)"⟩⟩))).valid = false ∧
    processText (textNode "x" [(⟨"bold", none⟩ : Mark), ⟨"link", some ⟨some "javascript:alert(1)"⟩⟩]) =
      processText (textNode "x"
        ([(⟨"bold", none⟩ : Mark), ⟨"link", some ⟨some "javascript:alert(1)"⟩⟩].filter keepValidLink)) :=
  ⟨by decide, by decide,
    invalid_link_renders_unlinked "x" _ ⟨"link", some ⟨some "javascript:alert(1)"⟩⟩
      (by decide) (by decide) (by decide)⟩

theorem sortMarks_canonical (ms : List Mark)
    (htypes : ∀ m ∈ ms, m.type ∈ MARK_ORDER) :
    sortMarks ms = canonicalMarkOrder ms := by
  rw [sortMarks_unlisted_first_stable]
  rw [List.filter_eq_nil_iff.mpr (fun m hm => by simp [htypes m hm])]
  simp [canonicalMarkOrder]

theorem mem_of_mem_canonical {m : Mark} {ms : List Mark}
    (h : m ∈ canonicalMarkOrder ms) : m ∈ ms := by
  simp only [canonicalMarkOrder, List.mem_append, List.mem_filter] at h
  rcases h with ((⟨h, _⟩ | ⟨h, _⟩) | ⟨h, _⟩) | ⟨h, _⟩ <;> exact h

theorem markTags_eq_tagFor {m : Mark} (htype : m.type ∈ MARK_ORDER)
    (hlink : m.type = "link" → (validateURL (some (hrefOf m))).valid = true) :
    markTags m = some (openTagFor m, closeTagFor m) := by
  simp only [MARK_ORDER, List.mem_cons, List.not_mem_nil, or_false] at htype
  rcases htype with h | h | h | h
  · simp [markTags, openTagFor, closeTagFor, h, hlink h]
  · simp [markTags, openTagFor, closeTagFor, h]
  · simp [markTags, openTagFor, closeTagFor, h]
  · simp [markTags, openTagFor, closeTagFor, h]

/-- The rendering of a text node whose marks are all listed (valid `link`),
via the canonical arrangement. -/
theorem processText_canonical (s : String) (ms : List Mark)
    (htypes : ∀ m ∈ ms, m.type ∈ MARK_ORDER)
    (hlink : ∀ m ∈ ms, m.type = "link" → (validateURL (some (hrefOf m))).valid = true) :
    processText (textNode s ms) =
      strJoin ((canonicalMarkOrder ms).map openTagFor) ++ escapeHTML s ++
        strJoin (((canonicalMarkOrder ms).reverse).map closeTagFor) := by
  rw [processText_textNode, sortMarks_canonical ms htypes]
  rw [filterMap_eq_map_of markTags (fun m => (openTagFor m, closeTagFor m)) _
    (fun x hx => markTags_eq_tagFor (htypes x (mem_of_mem_canonical hx))
      (hlink x (mem_of_mem_canonical hx)))]
  simp only [List.map_map, List.map_reverse]
  rfl

theorem filter_type_length_le_one {ms : List Mark} (hnd : (ms.map Mark.type).Nodup)
    (t : String) : (ms.filter (fun m => m.type = t)).length ≤ 1 := by
  induction ms with
  | nil => simp
  | cons m rest ih =>
    simp only [List.map_cons, List.nodup_cons] at hnd
    rw [List.filter_cons]
    by_cases h : m.type = t
    · have hnil : rest.filter (fun m => m.type = t) = [] := by
        refine List.filter_eq_nil_iff.mpr (fun x hx => ?_)
        simp only [decide_eq_true_eq]
        intro hxt
        exact hnd.1 (by rw [h, ← hxt]; exact List.mem_map_of_mem Mark.type hx)
      simp [h, hnil]
    · rw [if_neg (by simpa using h)]
      exact ih hnd.2

theorem perm_eq_of_length_le_one {α : Type} {l₁ l₂ : List α}
    (h : l₁.Perm l₂) (hl : l₂.length ≤ 1) : l₁ = l₂ := by
  match l₂, hl with
  | [], _ => exact h.eq_nil
  | [a], _ => exact List.perm_singleton.mp h

theorem canonical_perm_eq {ms' ms : List Mark} (hp : ms'.Perm ms)
    (hnd : (ms.map Mark.type).Nodup) :
    canonicalMarkOrder ms' = canonicalMarkOrder ms := by
  unfold canonicalMarkOrder
  have h : ∀ t : String, ms'.filter (fun m => m.type = t) = ms.filter (fun m => m.type = t) :=
    fun t => perm_eq_of_length_le_one (hp.filter _) (filter_type_length_le_one hnd t)
  rw [h "link", h "bold", h "italic", h "code"]

/-- Claim C4: on a text node whose marks are pairwise distinct members of
`{link, bold, italic, code}` (the `link` href validating), the opening tags
appear in the canonical order `link, bold, italic, code` restricted to the
marks present, the closing tags appear in exactly the reverse order, and
the output is the same for every permutation of the mark array. -/
theorem marks_canonical_nesting (s : String) (ms : List Mark)
    (hnd : (ms.map Mark.type).Nodup)
    (htypes : ∀ m ∈ ms, m.type ∈ MARK_ORDER)
    (hlink : ∀ m ∈ ms, m.type = "link" → (validateURL (some (hrefOf m))).valid = true) :
    processText (textNode s ms) =
      strJoin ((canonicalMarkOrder ms).map openTagFor) ++ escapeHTML s ++
        strJoin (((canonicalMarkOrder ms).reverse).map closeTagFor) ∧
    ∀ ms', ms'.Perm ms → processText (textNode s ms') = processText (textNode s ms) := by
  refine ⟨processText_canonical s ms htypes hlink, fun ms' hp => ?_⟩
  have htypes' : ∀ m ∈ ms', m.type ∈ MARK_ORDER := fun m hm => htypes m (hp.subset hm)
  have hlink' : ∀ m ∈ ms', m.type = "link" → (validateURL (some (hrefOf m))).valid = true :=
    fun m hm => hlink m (hp.subset hm)
  rw [processText_canonical s ms' htypes' hlink', processText_canonical s ms htypes hlink,
    canonical_perm_eq hp hnd]

/-- Witness for C4 at a concrete node: `[code, bold, link]` in scrambled
order renders with the link outermost and code innermost. -/
theorem marks_canonical_nesting_witness :
    (([(⟨"code", none⟩ : Mark), ⟨"bold", none⟩,
        ⟨"link", some ⟨some "https://example.com"⟩⟩].map Mark.type).Nodup) ∧
    processText (textNode "hi" [(⟨"code", none⟩ : Mark), ⟨"bold", none⟩,
        ⟨"link", some ⟨some "https://example.com"⟩⟩]) =
      strJoin ((canonicalMarkOrder [(⟨"code", none⟩ : Mark), ⟨"bold", none⟩,
          ⟨"link", some ⟨some "https://example.com"⟩⟩]).map openTagFor) ++ escapeHTML "hi" ++
        strJoin (((canonicalMarkOrder [(⟨"code", none⟩ : Mark), ⟨"bold", none⟩,
          ⟨"link", some ⟨some "https://example.com"⟩⟩]).reverse).map closeTagFor) :=
  ⟨by decide,
    (marks_canonical_nesting "hi" _ (by decide) (by decide) (by decide)).1⟩

/-! ## Claim C10: unknown mark types contribute nothing -/
/-- Claim C10: a mark whose type is none of `bold`, `italic`, `code`,
`link` contributes no tags: the text node renders exactly as with that
mark removed. -/
theorem unknown_mark_no_tags (s : String) (l1 l2 : List Mark) (m : Mark)
    (hm : ¬ m.type ∈ ["bold", "italic", "code", "link"]) :
    processText (textNode s (l1 ++ m :: l2)) = processText (textNode s (l1 ++ l2)) := by
  have hmo : ¬ m.type ∈ MARK_ORDER := by
    simp only [MARK_ORDER, List.mem_cons, List.mem_singleton]
    simp only [List.mem_cons, List.mem_singleton] at hm
    tauto
  have hkey : markKey m = -1 := (markKey_eq_neg_iff m).mpr hmo
  have htags : markTags m = none := by
    simp only [List.mem_cons, List.mem_singleton] at hm
    push_neg at hm
    simp [markTags, hm.1, hm.2.1, hm.2.2.1, hm.2.2.2]
  rw [processText_textNode, processText_textNode]
  have hgroups : ∀ k : Int, markKey m ≠ k →
      groupK k (l1 ++ m :: l2) = groupK k (l1 ++ l2) := by
    intro k hk
    simp [groupK, List.filter_append, List.filter_cons, hk]
  have hgneg : (groupK (-1) (l1 ++ m :: l2)).filterMap markTags
      = (groupK (-1) (l1 ++ l2)).filterMap markTags := by
    simp [groupK, List.filter_append, List.filter_cons, hkey, htags,
      List.filterMap_append, List.filterMap_cons]
  rw [sortMarks_eq_groups, sortMarks_eq_groups]
  simp only [List.filterMap_append]
  rw [hgneg, hgroups 0 (by rw [hkey]; decide), hgroups 1 (by rw [hkey]; decide),
    hgroups 2 (by rw [hkey]; decide), hgroups 3 (by rw [hkey]; decide)]

/-- Witness for C10 at a concrete node: an `underline` mark is ignored. -/
theorem unknown_mark_no_tags_witness :
    (¬ ("underline" : String) ∈ ["bold", "italic", "code", "link"]) ∧
    processText (textNode "x" ([(⟨"bold", none⟩ : Mark)] ++ (⟨"underline", none⟩ : Mark) :: [])) =
      processText (textNode "x" ([(⟨"bold", none⟩ : Mark)] ++ [])) :=
  ⟨by decide, unknown_mark_no_tags "x" [⟨"bold", none⟩] [] ⟨"underline", none⟩ (by decide)⟩

/-! ## Claim C6: escaping is a no-op on entity-free strings -/
/-- Claim C6, counterexample: `escapeHTML` is not the identity on every
string free of raw `&`, `<`, `>`: it also rewrites the double quote
(`REGEX.htmlEntities` is `[&<>"']`). -/
theorem escapeHTML_rewrites_quote :
    escapeHTML "\"" = "&quot;" ∧ ("&quot;" : String) ≠ "\"" := by
  constructor
  · decide
  · decide

/-- Claim C6 (amended): `escapeHTML` leaves any string unchanged that
contains none of the five escaped characters `&`, `<`, `>`, `"`, `'`. -/
theorem escapeHTML_noop_on_clean (s : String)
    (h : s.data.all
      (fun c => !(c = '&' || c = '<' || c = '>' || c = '"' || c = '\'')) = true) :
    escapeHTML s = s := by
  obtain ⟨data⟩ := s
  show (⟨data.flatMap escChar⟩ : String) = ⟨data⟩
  congr 1
  induction data with
  | nil => rfl
  | cons c cs ih =>
    simp only [List.all_cons, Bool.and_eq_true, Bool.not_eq_true',
      Bool.or_eq_false_iff, decide_eq_false_iff_not] at h
    obtain ⟨⟨⟨⟨⟨h1, h2⟩, h3⟩, h4⟩, h5⟩, hrest⟩ := h
    rw [List.flatMap_cons]
    rw [show escChar c = [c] by simp [escChar, h1, h2, h3, h4, h5]]
    have := ih (by
      simp only [List.all_eq_true] at hrest ⊢
      intro x hx
      exact hrest x hx)
    simp [this]

/-- Witness for C6 at a concrete entity-free string. -/
theorem escapeHTML_noop_on_clean_witness :
    ("hello world".data.all
      (fun c => !(c = '&' || c = '<' || c = '>' || c = '"' || c = '\'')) = true) ∧
    escapeHTML "hello world" = "hello world" :=
  ⟨by decide, escapeHTML_noop_on_clean "hello world" (by decide)⟩

/-! ## Claim C2: URL validator rejections -/
/-- Claim C2: `validateURL` returns an invalid result (empty `url`,
non-empty human-readable `error`) on a non-string or empty input, on any
input whose trimmed lowercase form begins with `javascript:`, `data:` or
`vbscript:`, and on any input that parses as an absolute URL whose scheme
is not `http`, `https` or `mailto`; in particular `javascript:alert(1)`
and `ftp://x.com` are rejected. -/
theorem validateURL_rejections :
    validateURL none = ⟨false, "", "URL is required"⟩ ∧
    validateURL (some "") = ⟨false, "", "URL is required"⟩ ∧
    (∀ s : String,
      (jsStartsWith (jsToLower (jsTrimS s)) "javascript:" = true ∨
       jsStartsWith (jsToLower (jsTrimS s)) "data:" = true ∨
       jsStartsWith (jsToLower (jsTrimS s)) "vbscript:" = true) →
      validateURL (some s) = ⟨false, "", "Invalid URL protocol"⟩) ∧
    (∀ s : String, ∀ p : ParsedURL,
      jsStartsWith (jsToLower (jsTrimS s)) "javascript:" = false →
      jsStartsWith (jsToLower (jsTrimS s)) "data:" = false →
      jsStartsWith (jsToLower (jsTrimS s)) "vbscript:" = false →
      jsURLParse (jsTrimS s) = some p →
      ¬ p.protocol ∈ ["http:", "https:", "mailto:"] →
      validateURL (some s) = ⟨false, "", "Only HTTP, HTTPS, and mailto links are allowed"⟩) ∧
    (validateURL (some "javascript:alert(1)")).valid = false ∧
    (validateURL (some "ftp://x.com")).valid = false := by
  refine ⟨by decide, by decide, ?_, ?_, by decide, by decide⟩
  · intro s h
    have hs : s ≠ "" := by
      intro he; subst he; revert h; decide
    have hcond : (jsStartsWith (jsToLower (jsTrimS s)) "javascript:" ||
        jsStartsWith (jsToLower (jsTrimS s)) "data:" ||
        jsStartsWith (jsToLower (jsTrimS s)) "vbscript:") = true := by
      rcases h with h | h | h <;> simp [h]
    simp [validateURL, hs, hcond]
  · intro s p h1 h2 h3 hp hmem
    have hs : s ≠ "" := by
      intro he; subst he
      rw [show jsTrimS "" = "" from by decide] at hp
      rw [show jsURLParse "" = none from by decide] at hp
      exact Option.noConfusion hp
    have hcond : (jsStartsWith (jsToLower (jsTrimS s)) "javascript:" ||
        jsStartsWith (jsToLower (jsTrimS s)) "data:" ||
        jsStartsWith (jsToLower (jsTrimS s)) "vbscript:") = false := by
      simp [h1, h2, h3]
    simp [validateURL, hs, hcond, hp, hmem]

/-- Witness for C2: a shouted `DATA:` URL hits the blocklist; `ftp://x.com`
parses but carries a disallowed scheme. -/
theorem validateURL_rejections_witness :
    (jsStartsWith (jsToLower (jsTrimS "DATA:text/html")) "data:" = true) ∧
    validateURL (some "DATA:text/html") = ⟨false, "", "Invalid URL protocol"⟩ ∧
    jsURLParse (jsTrimS "ftp://x.com") = some ⟨"ftp:", "ftp://x.com/"⟩ ∧
    validateURL (some "ftp://x.com") =
      ⟨false, "", "Only HTTP, HTTPS, and mailto links are allowed"⟩ :=
  ⟨by decide,
   validateURL_rejections.2.2.1 "DATA:text/html" (Or.inr (Or.inl (by decide))),
   by decide,
   validateURL_rejections.2.2.2.1 "ftp://x.com" ⟨"ftp:", "ftp://x.com/"⟩
     (by decide) (by decide) (by decide) (by decide) (by decide)⟩

/-! ## Claim C9: reading time is the ceiling of words / 200 -/
theorem ceilDiv_200 (w : ℕ) : (w + 199) / 200 = ⌈(w : ℚ) / 200⌉₊ := by
  rcases Nat.eq_zero_or_pos w with hw | hw
  · subst hw; norm_num
  · have hd := Nat.div_add_mod (w + 199) 200
    have hm : (w + 199) % 200 < 200 := Nat.mod_lt _ (by norm_num)
    generalize hq : (w + 199) / 200 = q at hd ⊢
    obtain ⟨m, rfl⟩ : ∃ m, q = m + 1 := ⟨q - 1, by omega⟩
    symm
    rw [Nat.ceil_eq_iff (by omega)]
    constructor
    · rw [lt_div_iff₀ (by norm_num : (0:ℚ) < 200)]
      have hx : (m + 1 - 1) * 200 < w := by omega
      exact_mod_cast hx
    · rw [div_le_iff₀ (by norm_num : (0:ℚ) < 200)]
      have hx : w ≤ (m + 1) * 200 := by omega
      exact_mod_cast hx

theorem readingTime_eq_ceil (t : Option String) :
    (calculateStats t).readingTimeMinutes = ⌈((calculateStats t).words : ℚ) / 200⌉₊ := by
  match t with
  | none => norm_num [calculateStats]
  | some s =>
    simp only [calculateStats]
    split_ifs <;> simp [ceilDiv_200]

/-- Claim C9: `readingTimeMinutes` is always the ceiling of `words / 200`;
non-string, empty, and whitespace-only inputs give the all-zero result, a
200-word text reads in 1 minute and a 201-word text in 2. -/
theorem readingTime_is_ceiling :
    calculateStats none = ⟨0, 0, 0⟩ ∧
    (∀ s : String, s.data.all jsIsSpace = true → calculateStats (some s) = ⟨0, 0, 0⟩) ∧
    (∀ t : Option String,
      (calculateStats t).readingTimeMinutes = ⌈((calculateStats t).words : ℚ) / 200⌉₊) ∧
    (∀ t : Option String, (calculateStats t).words = 200 →
      (calculateStats t).readingTimeMinutes = 1) ∧
    (∀ t : Option String, (calculateStats t).words = 201 →
      (calculateStats t).readingTimeMinutes = 2) := by
  refine ⟨by decide, ?_, readingTime_eq_ceil, ?_, ?_⟩
  · intro s hsp
    by_cases hs : s = ""
    · subst hs; decide
    · have htrim : jsTrimS (normalizeText s) = "" := by
        have hnorm : ((normalizeText s).data.all jsIsSpace) = true := by
          simp only [normalizeText, List.all_eq_true] at hsp ⊢
          exact fun c hc => hsp c (List.mem_of_mem_filter hc)
        show (⟨trimList (normalizeText s).data⟩ : String) = ""
        have h1 : (normalizeText s).data.dropWhile jsIsSpace = [] :=
          List.dropWhile_eq_nil_iff.mpr (fun x hx => List.all_eq_true.mp hnorm x hx)
        rw [trimList, h1]
        rfl
      simp [calculateStats, hs, htrim]
  · intro t h
    rw [readingTime_eq_ceil, h]
    norm_num
  · intro t h
    rw [readingTime_eq_ceil, h]
    rw [show ((201 : ℕ) : ℚ) = 201 from by norm_num]
    rw [Nat.ceil_eq_iff (by norm_num)]
    norm_num

set_option maxRecDepth 40000 in
/-- Witness for C9: whitespace-only input, and concrete 200- and 201-word
texts. -/
theorem readingTime_is_ceiling_witness :
    ("  ".data.all jsIsSpace = true) ∧ calculateStats (some "  ") = ⟨0, 0, 0⟩ ∧
    (calculateStats (some (joinSep " " (List.replicate 200 "a")))).words = 200 ∧
    (calculateStats (some (joinSep " " (List.replicate 200 "a")))).readingTimeMinutes = 1 ∧
    (calculateStats (some (joinSep " " (List.replicate 201 "a")))).words = 201 ∧
    (calculateStats (some (joinSep " " (List.replicate 201 "a")))).readingTimeMinutes = 2 :=
  ⟨by decide, readingTime_is_ceiling.2.1 "  " (by decide),
   by decide, readingTime_is_ceiling.2.2.2.1 _ (by decide),
   by decide, readingTime_is_ceiling.2.2.2.2 _ (by decide)⟩

theorem wordCountOf_eq_tokenCount (s : String) : wordCountOf s = tokenCount s.data [] := rfl

theorem tokenCount_nil (acc : List Char) :
    tokenCount [] acc = if acc = [] then 0 else 1 := by
  by_cases h : acc = []
  · simp [tokenCount, splitWsAux, h]
  · simp [tokenCount, splitWsAux, List.filter_cons, List.reverse_eq_nil_iff, h]

theorem tokenCount_cons_space {c : Char} (h : jsIsSpace c = true) (l acc : List Char) :
    tokenCount (c :: l) acc = (if acc = [] then 0 else 1) + tokenCount l [] := by
  by_cases ha : acc = []
  · simp [tokenCount, splitWsAux, h, List.filter_cons, ha]
  · simp only [tokenCount, splitWsAux, h, if_true, List.filter_cons]
    simp [List.reverse_eq_nil_iff, ha]
    omega

theorem tokenCount_cons_nonspace {c : Char} (h : jsIsSpace c = false) (l acc : List Char) :
    tokenCount (c :: l) acc = tokenCount l (c :: acc) := by
  simp [tokenCount, splitWsAux, h]

theorem tokenCount_all_spaces {suf : List Char} (h : ∀ c ∈ suf, jsIsSpace c = true) :
    ∀ acc, tokenCount suf acc = if acc = [] then 0 else 1 := by
  induction suf with
  | nil => exact tokenCount_nil
  | cons c rest ih =>
    intro acc
    rw [tokenCount_cons_space (h c (by simp)) rest acc,
      ih (fun x hx => h x (by simp [hx])) []]
    simp

theorem tokenCount_append_trailing {suf : List Char}
    (h : ∀ c ∈ suf, jsIsSpace c = true) (cs : List Char) :
    ∀ acc, tokenCount (cs ++ suf) acc = tokenCount cs acc := by
  induction cs with
  | nil =>
    intro acc
    rw [List.nil_append, tokenCount_all_spaces h acc, tokenCount_nil]
  | cons c rest ih =>
    intro acc
    by_cases hc : jsIsSpace c = true
    · rw [List.cons_append, tokenCount_cons_space hc, tokenCount_cons_space hc, ih]
    · have hc' : jsIsSpace c = false := by simpa using hc
      rw [List.cons_append, tokenCount_cons_nonspace hc', tokenCount_cons_nonspace hc', ih]

theorem tokenCount_append_leading {pre : List Char}
    (h : ∀ c ∈ pre, jsIsSpace c = true) (cs : List Char) :
    tokenCount (pre ++ cs) [] = tokenCount cs [] := by
  induction pre with
  | nil => rfl
  | cons c rest ih =>
    rw [List.cons_append, tokenCount_cons_space (h c (by simp)),
      ih (fun x hx => h x (by simp [hx]))]
    simp

/-- `trim` splits any character list into an all-whitespace prefix, the
trimmed core, and an all-whitespace suffix. -/
theorem trim_decomp (cs : List Char) :
    ∃ pre suf, (∀ c ∈ pre, jsIsSpace c = true) ∧ (∀ c ∈ suf, jsIsSpace c = true) ∧
      cs = pre ++ trimList cs ++ suf := by
  refine ⟨cs.takeWhile jsIsSpace,
    ((cs.dropWhile jsIsSpace).reverse.takeWhile jsIsSpace).reverse, ?_, ?_, ?_⟩
  · exact fun c hc => List.mem_takeWhile_imp hc
  · intro c hc
    rw [List.mem_reverse] at hc
    exact List.mem_takeWhile_imp hc
  · conv_lhs => rw [← List.takeWhile_append_dropWhile (p := jsIsSpace) (l := cs)]
    rw [List.append_assoc]
    congr 1
    conv_lhs => rw [← List.reverse_reverse (cs.dropWhile jsIsSpace),
      ← List.takeWhile_append_dropWhile (p := jsIsSpace)
        (l := (cs.dropWhile jsIsSpace).reverse),
      List.reverse_append]
    rfl

theorem not_cjk_of_space {c : Char} (h : jsIsSpace c = true) : isCJKChar c = false := by
  rw [Bool.eq_false_iff]
  intro hc
  simp only [jsIsSpace, Bool.or_eq_true, Bool.and_eq_true, decide_eq_true_eq] at h
  simp only [isCJKChar, Bool.or_eq_true, Bool.and_eq_true, decide_eq_true_eq] at hc
  omega

theorem containsCJK_trim (s : String) : containsCJK (jsTrimS s) = containsCJK s := by
  obtain ⟨pre, suf, hp, hs, he⟩ := trim_decomp s.data
  have h1 : pre.any isCJKChar = false :=
    List.any_eq_false.mpr (fun c hc => by simp [not_cjk_of_space (hp c hc)])
  have h2 : suf.any isCJKChar = false :=
    List.any_eq_false.mpr (fun c hc => by simp [not_cjk_of_space (hs c hc)])
  show (trimList s.data).any isCJKChar = s.data.any isCJKChar
  conv_rhs => rw [he]
  simp [List.any_append, h1, h2]

theorem countCJK_trim (s : String) : countCJK (jsTrimS s) = countCJK s := by
  obtain ⟨pre, suf, hp, hs, he⟩ := trim_decomp s.data
  have h1 : pre.filter isCJKChar = [] :=
    List.filter_eq_nil_iff.mpr (fun c hc => by simp [not_cjk_of_space (hp c hc)])
  have h2 : suf.filter isCJKChar = [] :=
    List.filter_eq_nil_iff.mpr (fun c hc => by simp [not_cjk_of_space (hs c hc)])
  show ((trimList s.data).filter isCJKChar).length = (s.data.filter isCJKChar).length
  conv_rhs => rw [he]
  simp [List.filter_append, h1, h2]

theorem wordCountOf_trim (s : String) : wordCountOf (jsTrimS s) = wordCountOf s := by
  obtain ⟨pre, suf, hp, hs, he⟩ := trim_decomp s.data
  rw [wordCountOf_eq_tokenCount, wordCountOf_eq_tokenCount]
  show tokenCount (trimList s.data) [] = tokenCount s.data []
  conv_rhs => rw [he]
  rw [List.append_assoc, tokenCount_append_leading hp,
    tokenCount_append_trailing hs (trimList s.data) []]

theorem wordCountOf_cjkToSpace_trim (s : String) :
    wordCountOf (cjkToSpace (jsTrimS s)) = wordCountOf (cjkToSpace s) := by
  obtain ⟨pre, suf, hp, hs, he⟩ := trim_decomp s.data
  rw [wordCountOf_eq_tokenCount, wordCountOf_eq_tokenCount]
  show tokenCount ((trimList s.data).map _) [] = tokenCount (s.data.map _) []
  conv_rhs => rw [he]
  simp only [List.map_append]
  have hmap : ∀ (l : List Char), (∀ c ∈ l, jsIsSpace c = true) →
      ∀ c ∈ l.map (fun c => if isCJKChar c then ' ' else c), jsIsSpace c = true := by
    intro l hl c hc
    obtain ⟨x, hx, rfl⟩ := List.mem_map.mp hc
    rw [not_cjk_of_space (hl x hx), if_neg (by simp)]
    exact hl x hx
  rw [List.append_assoc, tokenCount_append_leading (hmap pre hp),
    tokenCount_append_trailing (hmap suf hs) _ []]

/-- Claim C8, counterexample: for the zero-width-space string the claim
predicts one Western token of the raw text, but `calculateStats` strips
zero-width characters first and reports zero words. -/
theorem cjk_wordcount_counterexample :
    containsCJK "\u200B" = false ∧ wordCountOf "\u200B" = 1 ∧
    (calculateStats (some "\u200B")).words = 0 ∧
    (calculateStats (some "\u200B")).words ≠ wordCountOf "\u200B" :=
  ⟨by decide, by decide, by decide, by decide⟩

/-- Claim C8 (amended): on the zero-width-stripped text, the word count is
the CJK character count plus the Western token count of the text with CJK
characters replaced by spaces when any CJK character is present, and the
plain whitespace-token count otherwise; `"hello 你好 world"` counts 4
words. -/
theorem words_cjk_hybrid :
    (∀ s : String, containsCJK (normalizeText s) = true →
      (calculateStats (some s)).words =
        countCJK (normalizeText s) + wordCountOf (cjkToSpace (normalizeText s))) ∧
    (∀ s : String, containsCJK (normalizeText s) = false →
      (calculateStats (some s)).words = wordCountOf (normalizeText s)) ∧
    (calculateStats (some "hello 你好 world")).words = 4 := by
  refine ⟨?_, ?_, by decide⟩
  · intro s hcjk
    have hs : s ≠ "" := by
      intro he; subst he; exact absurd hcjk (by decide)
    have htrim : containsCJK (jsTrimS (normalizeText s)) = true := by
      rw [containsCJK_trim]; exact hcjk
    have htr : jsTrimS (normalizeText s) ≠ "" := by
      intro he; rw [he] at htrim; exact absurd htrim (by decide)
    simp only [calculateStats, hs, if_false, htr]
    simp only [calculateWordCount]
    rw [if_neg htr, if_pos htrim, countCJK_trim, wordCountOf_cjkToSpace_trim]
  · intro s hcjk
    by_cases hs : s = ""
    · subst hs; decide
    · by_cases htr : jsTrimS (normalizeText s) = ""
      · have : wordCountOf (normalizeText s) = 0 := by
          rw [← wordCountOf_trim, htr]; decide
        simp [calculateStats, hs, htr, this]
      · have htrim : containsCJK (jsTrimS (normalizeText s)) = false := by
          rw [containsCJK_trim]; exact hcjk
        simp only [calculateStats, hs, if_false, htr]
        simp only [calculateWordCount]
        rw [if_neg htr, if_neg (by simp [htrim]), wordCountOf_trim]

/-- Witness for C8 on concrete mixed-script and pure-Western inputs. -/
theorem words_cjk_hybrid_witness :
    containsCJK (normalizeText "hello 你好 world") = true ∧
    (calculateStats (some "hello 你好 world")).words =
      countCJK (normalizeText "hello 你好 world") +
        wordCountOf (cjkToSpace (normalizeText "hello 你好 world")) ∧
    containsCJK (normalizeText "one two") = false ∧
    (calculateStats (some "one two")).words = wordCountOf (normalizeText "one two") :=
  ⟨by decide, words_cjk_hybrid.1 "hello 你好 world" (by decide),
   by decide, words_cjk_hybrid.2.1 "one two" (by decide)⟩

/-! ## Claim C7: empty content produces no tags -/
/-- Claim C7, counterexample: a list item whose only paragraph holds the
single space `" "` has whitespace-only content after inline processing,
yet `processListItem` emits `<li> </li>` rather than the empty string
(its loop only skips parts that are empty strings, without trimming). -/
theorem listItem_whitespace_not_dropped :
    processInline (paraNode [plainText " "]).content = " " ∧
    jsTrimS " " = "" ∧
    processListItem (Node.mk "listItem" none (some [paraNode [plainText " "]]) none none) =
      "<li> </li>" ∧
    ("<li> </li>" : String) ≠ "" :=
  ⟨by decide, by decide, by decide, by decide⟩

/-- Claim C7 (amended): paragraphs and headings whose inline content is
empty or whitespace-only produce the empty string; list items and
blockquotes produce the empty string when every part contributed by their
children is the empty string (whitespace-only parts, however, still emit
tags — see the counterexample). -/
theorem empty_content_produces_no_tags :
    (∀ n : Node, jsTrimS (processInline n.content) = "" → processParagraph n = "") ∧
    (∀ n : Node, jsTrimS (processInline n.content) = "" → processHeading n = "") ∧
    (∀ n : Node, (∀ l, n.content = some l → ∀ p ∈ listItemParts l, p = "") →
      processListItem n = "") ∧
    (∀ n : Node, (∀ l, n.content = some l → ∀ p ∈ blockquoteParts l, p = "") →
      processBlockquote n = "") := by
  refine ⟨?_, ?_, ?_, ?_⟩
  · intro n h
    simp [processParagraph, paragraphOut, h]
  · intro n h
    simp [processHeading, headingOut, h]
  · intro n h
    show listItemOut n.content = ""
    match hc : n.content with
    | none => simp [listItemOut]
    | some l =>
      have hnil : (listItemParts l).filter (· ≠ "") = [] :=
        List.filter_eq_nil_iff.mpr (fun p hp => by simp [h l hc p hp])
      simp only [listItemOut, hnil]
      rfl
  · intro n h
    show blockquoteOut n.content = ""
    match hc : n.content with
    | none => simp [blockquoteOut]
    | some l =>
      have hnil : (blockquoteParts l).filter (· ≠ "") = [] :=
        List.filter_eq_nil_iff.mpr (fun p hp => by simp [h l hc p hp])
      simp only [blockquoteOut, hnil]
      rfl

/-- Witness for C7 at concrete nodes: a whitespace-only paragraph and
heading, and a list item / blockquote whose only part is empty. -/
theorem empty_content_produces_no_tags_witness :
    (jsTrimS (processInline (paraNode [plainText "  "]).content) = "") ∧
    processParagraph (paraNode [plainText "  "]) = "" ∧
    processHeading (Node.mk "heading" none (some [plainText "  "]) none none) = "" ∧
    processListItem (Node.mk "listItem" none (some [paraNode []]) none none) = "" ∧
    processBlockquote (Node.mk "blockquote" none (some [paraNode []]) none none) = "" :=
  ⟨by decide,
   empty_content_produces_no_tags.1 _ (by decide),
   empty_content_produces_no_tags.2.1 _ (by decide),
   empty_content_produces_no_tags.2.2.1 _ (by
     intro l hl
     simp only [Node.content] at hl
     cases hl
     decide),
   empty_content_produces_no_tags.2.2.2 _ (by
     intro l hl
     simp only [Node.content] at hl
     cases hl
     decide)⟩

theorem tagNamesAux_append (xs ys : List Char) :
    ∀ st, tagNamesAux (xs ++ ys) st = tagNamesAux xs st ++ tagNamesAux ys (tagScanState xs st) := by
  induction xs with
  | nil => intro st; simp [tagNamesAux, tagScanState]
  | cons c rest ih =>
    intro st
    match st with
    | none =>
      by_cases h : c = '<' <;>
        simp [tagNamesAux, tagScanState, h, ih]
    | some acc =>
      by_cases h : c = '>' <;>
        simp [tagNamesAux, tagScanState, h, ih]

theorem tagScanState_append (xs ys : List Char) :
    ∀ st, tagScanState (xs ++ ys) st = tagScanState ys (tagScanState xs st) := by
  induction xs with
  | nil => intro st; simp [tagScanState]
  | cons c rest ih =>
    intro st
    match st with
    | none => simp [tagScanState, ih]
    | some acc => simp [tagScanState, ih]

theorem isPrefixOf_append {l a : List Char} (b : List Char)
    (h : l.isPrefixOf a = true) : l.isPrefixOf (a ++ b) = true := by
  induction l generalizing a with
  | nil => simp [List.isPrefixOf]
  | cons x xs ih =>
    match a with
    | [] => simp [List.isPrefixOf] at h
    | y :: ys =>
      simp only [List.isPrefixOf, Bool.and_eq_true] at h ⊢
      exact ⟨h.1, ih h.2⟩

theorem entityAt_append {a : List Char} (b : List Char)
    (h : entityAt a = true) : entityAt (a ++ b) = true := by
  simp only [entityAt, Bool.or_eq_true] at h ⊢
  rcases h with ((((h | h) | h) | h) | h) <;>
    simp [isPrefixOf_append b h]

theorem textOKAux_append {xs ys : List Char}
    (hy : textOKAux ys false = true) :
    ∀ b, textOKAux xs b = true → textOKAux (xs ++ ys) b = true := by
  induction xs with
  | nil =>
    intro b hx
    simp only [textOKAux, Bool.not_eq_true'] at hx
    subst hx
    simpa using hy
  | cons c rest ih =>
    intro b hx
    match b with
    | true =>
      by_cases h1 : c = '<'
      · simp [textOKAux, h1] at hx
      · by_cases h2 : c = '>'
        · simp only [textOKAux, h1, h2, if_false, if_true, List.cons_append] at hx ⊢
          exact ih false hx
        · simp only [textOKAux, h1, h2, if_false, List.cons_append] at hx ⊢
          exact ih true hx
    | false =>
      by_cases h1 : c = '<'
      · simp only [textOKAux, h1, if_true, List.cons_append] at hx ⊢
        exact ih true hx
      · by_cases h2 : c = '>'
        · simp [textOKAux, h1, h2] at hx
        · by_cases h3 : c = '&'
          · subst h3
            have hx' : (entityAt rest && textOKAux rest false) = true := by
              simpa [textOKAux] using hx
            rw [show ('&' :: rest) ++ ys = '&' :: (rest ++ ys) from rfl,
              show textOKAux ('&' :: (rest ++ ys)) false =
                (entityAt (rest ++ ys) && textOKAux (rest ++ ys) false) from by
                  simp [textOKAux]]
            rw [Bool.and_eq_true] at hx' ⊢
            exact ⟨entityAt_append ys hx'.1, ih false hx'.2⟩
          · simp only [textOKAux, h1, h2, h3, if_false, List.cons_append] at hx ⊢
            exact ih false hx

theorem htmlOKL_append {a b : List Char} (ha : htmlOKL a) (hb : htmlOKL b) :
    htmlOKL (a ++ b) := by
  obtain ⟨ha1, ha2, ha3⟩ := ha
  obtain ⟨hb1, hb2, hb3⟩ := hb
  refine ⟨?_, ?_, ?_⟩
  · rw [tagNamesAux_append, ha3, List.all_append]
    simp [ha1, hb1]
  · exact textOKAux_append hb2 false ha2
  · rw [tagScanState_append, ha3, hb3]

theorem htmlOK_append {a b : String} (ha : htmlOK a) (hb : htmlOK b) :
    htmlOK (a ++ b) := htmlOKL_append ha hb

/-- Scanning the image of `escapeHTML` never opens a tag, yields no tag
names, and passes the text-run check whatever follows. -/
theorem escape_piece (cs : List Char) :
    tagScanState (cs.flatMap escChar) none = none ∧
    tagNamesAux (cs.flatMap escChar) none = [] ∧
    ∀ t, textOKAux (cs.flatMap escChar ++ t) false = textOKAux t false := by
  induction cs with
  | nil => exact ⟨rfl, rfl, fun t => rfl⟩
  | cons c rest ih =>
    obtain ⟨ih1, ih2, ih3⟩ := ih
    rw [List.flatMap_cons]
    by_cases h1 : c = '&'
    · subst h1
      refine ⟨by simp [escChar, tagScanState, ih1],
              by simp [escChar, tagNamesAux, ih2], fun t => ?_⟩
      simp [escChar, textOKAux, entityAt, List.isPrefixOf, ih3 t]
    · by_cases h2 : c = '<'
      · subst h2
        refine ⟨by simp [escChar, tagScanState, ih1],
                by simp [escChar, tagNamesAux, ih2], fun t => ?_⟩
        simp [escChar, textOKAux, entityAt, List.isPrefixOf, ih3 t]
      · by_cases h3 : c = '>'
        · subst h3
          refine ⟨by simp [escChar, tagScanState, ih1],
                  by simp [escChar, tagNamesAux, ih2], fun t => ?_⟩
          simp [escChar, textOKAux, entityAt, List.isPrefixOf, ih3 t]
        · by_cases h4 : c = '"'
          · subst h4
            refine ⟨by simp [escChar, tagScanState, ih1],
                    by simp [escChar, tagNamesAux, ih2], fun t => ?_⟩
            simp [escChar, textOKAux, entityAt, List.isPrefixOf, ih3 t]
          · by_cases h5 : c = '\''
            · subst h5
              refine ⟨by simp [escChar, tagScanState, ih1],
                      by simp [escChar, tagNamesAux, ih2], fun t => ?_⟩
              simp [escChar, textOKAux, entityAt, List.isPrefixOf, ih3 t]
            · refine ⟨by simp [escChar, h1, h2, h3, h4, h5, tagScanState, ih1],
                      by simp [escChar, h1, h2, h3, h4, h5, tagNamesAux, ih2], fun t => ?_⟩
              simp [escChar, h1, h2, h3, h4, h5, textOKAux, ih3 t]

theorem escape_ok (s : String) : htmlOK (escapeHTML s) := by
  obtain ⟨h1, h2, h3⟩ := escape_piece s.data
  have ht := h3 []
  rw [List.append_nil] at ht
  exact ⟨by rw [show (escapeHTML s).data = s.data.flatMap escChar from rfl, h2]; rfl,
         by rw [show (escapeHTML s).data = s.data.flatMap escChar from rfl, ht]; rfl,
         by rw [show (escapeHTML s).data = s.data.flatMap escChar from rfl, h1]⟩

theorem tag_body_names (body : List Char) (hb : ∀ c ∈ body, c ≠ '<' ∧ c ≠ '>') :
    ∀ acc rest, tagNamesAux (body ++ '>' :: rest) (some acc) =
      nameFromBody (acc.reverse ++ body) :: tagNamesAux rest none := by
  induction body with
  | nil => intro acc rest; simp [tagNamesAux]
  | cons c bodyr ih =>
    intro acc rest
    have hc := hb c (by simp)
    rw [List.cons_append]
    show (if c = '>' then nameFromBody acc.reverse :: tagNamesAux (bodyr ++ '>' :: rest) none
          else tagNamesAux (bodyr ++ '>' :: rest) (some (c :: acc))) = _
    rw [if_neg hc.2, ih (fun x hx => hb x (by simp [hx])) (c :: acc) rest]
    simp [List.reverse_cons, List.append_assoc]

theorem tag_body_state (body : List Char) (hb : ∀ c ∈ body, c ≠ '<' ∧ c ≠ '>') :
    ∀ acc rest, tagScanState (body ++ '>' :: rest) (some acc) = tagScanState rest none := by
  induction body with
  | nil => intro acc rest; simp [tagScanState]
  | cons c bodyr ih =>
    intro acc rest
    have hc := hb c (by simp)
    rw [List.cons_append]
    show tagScanState (bodyr ++ '>' :: rest) (if c = '>' then none else some (c :: acc)) = _
    rw [if_neg hc.2, ih (fun x hx => hb x (by simp [hx])) (c :: acc) rest]

theorem tag_body_text (body : List Char) (hb : ∀ c ∈ body, c ≠ '<' ∧ c ≠ '>') :
    ∀ rest, textOKAux (body ++ '>' :: rest) true = textOKAux rest false := by
  induction body with
  | nil => intro rest; simp [textOKAux]
  | cons c bodyr ih =>
    intro rest
    have hc := hb c (by simp)
    rw [List.cons_append]
    show (if c = '<' then false
          else if c = '>' then textOKAux (bodyr ++ '>' :: rest) false
          else textOKAux (bodyr ++ '>' :: rest) true) = _
    rw [if_neg hc.1, if_neg hc.2, ih (fun x hx => hb x (by simp [hx])) rest]

/-- A single complete tag whose body avoids `<`/`>` and whose name is
allowed is a safe fragment. -/
theorem tag_piece_ok (body : List Char) (hb : ∀ c ∈ body, c ≠ '<' ∧ c ≠ '>')
    (hname : allowedBr (nameFromBody body) = true) :
    htmlOKL ('<' :: (body ++ ['>'])) := by
  refine ⟨?_, ?_, ?_⟩
  · show (tagNamesAux ('<' :: (body ++ '>' :: [])) none).all allowedBr = true
    have h0 : tagNamesAux ('<' :: (body ++ '>' :: [])) none
        = tagNamesAux (body ++ '>' :: []) (some []) := by
      simp [tagNamesAux]
    rw [h0, tag_body_names body hb [] []]
    simp [hname, tagNamesAux]
  · show textOKAux ('<' :: (body ++ '>' :: [])) false = true
    have h0 : textOKAux ('<' :: (body ++ '>' :: [])) false
        = textOKAux (body ++ '>' :: []) true := by
      simp [textOKAux]
    rw [h0, tag_body_text body hb []]
    rfl
  · show tagScanState ('<' :: (body ++ '>' :: [])) none = none
    have h0 : tagScanState ('<' :: (body ++ '>' :: [])) none
        = tagScanState (body ++ '>' :: []) (some []) := by
      simp [tagScanState]
    rw [h0, tag_body_state body hb [] []]
    rfl

theorem escAttrChar_no_angle (c : Char) :
    (escAttrChar c).all (fun x => !(x = '<') && !(x = '>')) = true := by
  unfold escAttrChar
  split_ifs with h1 h2 h3 h4 h5
  · decide
  · decide
  · decide
  · decide
  · decide
  · simp [h4, h5]

theorem escapeAttribute_no_angle {u : String} {x : Char}
    (hx : x ∈ (escapeAttribute u).data) : x ≠ '<' ∧ x ≠ '>' := by
  rw [escapeAttribute_eq_flatMap] at hx
  obtain ⟨c, _, hxc⟩ := List.mem_flatMap.mp hx
  have h := List.all_eq_true.mp (escAttrChar_no_angle c) x hxc
  simp only [Bool.and_eq_true, Bool.not_eq_true', decide_eq_false_iff_not] at h
  exact h

/-- The anchor opening tag with an escaped href is a safe fragment. -/
theorem anchor_ok (u : String) : htmlOK ("<a href=\"" ++ escapeAttribute u ++ "\">") := by
  show htmlOKL (("<a href=\"" ++ escapeAttribute u ++ "\">").data)
  have hd : ("<a href=\"" ++ escapeAttribute u ++ "\">").data
      = '<' :: ((('a' :: ' ' :: 'h' :: 'r' :: 'e' :: 'f' :: '=' :: '"' :: []) ++
          (escapeAttribute u).data ++ ['"']) ++ ['>']) := by
    show ("<a href=\"".data ++ (escapeAttribute u).data) ++ "\">".data = _
    simp [List.append_assoc]
  rw [hd]
  refine tag_piece_ok _ ?_ ?_
  · intro x hx
    simp only [List.append_assoc, List.mem_append, List.mem_cons, List.mem_singleton,
      List.not_mem_nil, or_false] at hx
    rcases hx with h | h | h
    · rcases h with h | h | h | h | h | h | h | h <;> subst h <;> exact ⟨by decide, by decide⟩
    · exact escapeAttribute_no_angle h
    · subst h; exact ⟨by decide, by decide⟩
  · show allowedBr (nameFromBody ('a' :: ' ' :: _)) = true
    rfl

theorem markTags_pair_ok {m : Mark} {p : String × String} (h : markTags m = some p) :
    htmlOK p.1 ∧ htmlOK p.2 := by
  simp only [markTags] at h
  by_cases h1 : m.type = "bold"
  · rw [if_pos h1] at h; cases h; exact ⟨by decide, by decide⟩
  · rw [if_neg h1] at h
    by_cases h2 : m.type = "italic"
    · rw [if_pos h2] at h; cases h; exact ⟨by decide, by decide⟩
    · rw [if_neg h2] at h
      by_cases h3 : m.type = "code"
      · rw [if_pos h3] at h; cases h; exact ⟨by decide, by decide⟩
      · rw [if_neg h3] at h
        by_cases h4 : m.type = "link"
        · rw [if_pos h4] at h
          by_cases h5 : (validateURL (some (hrefOf m))).valid = true
          · rw [if_pos h5] at h
            cases h
            exact ⟨anchor_ok _, by show htmlOK "</a>"; decide⟩
          · rw [if_neg h5] at h
            exact absurd h (by simp)
        · rw [if_neg h4] at h
          exact absurd h (by simp)

theorem strJoin_ok {l : List String} (h : ∀ x ∈ l, htmlOK x) : htmlOK (strJoin l) := by
  induction l with
  | nil => decide
  | cons x xs ih =>
    exact htmlOK_append (h x (by simp)) (ih (fun y hy => h y (by simp [hy])))

theorem joinSep_ok {sep : String} (hsep : htmlOK sep) :
    ∀ {l : List String}, (∀ x ∈ l, htmlOK x) → htmlOK (joinSep sep l) := by
  intro l
  induction l with
  | nil =>
    intro _
    show htmlOK ""
    decide
  | cons x xs ih =>
    intro h
    match xs with
    | [] => exact h x (by simp)
    | y :: ys =>
      show htmlOK (x ++ sep ++ joinSep sep (y :: ys))
      exact htmlOK_append (htmlOK_append (h x (by simp)) hsep)
        (ih (fun z hz => h z (by simp [hz])))

theorem wrap_ok {o c : String} (ho : htmlOK o) (hc : htmlOK c)
    {inner : String} (hi : htmlOK inner) : htmlOK (o ++ inner ++ c) :=
  htmlOK_append (htmlOK_append ho hi) hc

theorem processText_ok (n : Node) : htmlOK (processText n) := by
  obtain ⟨t, a, c, txt, m⟩ := n
  simp only [processText, Node.type, Node.text, Node.marks]
  split_ifs with ht
  · decide
  · match txt with
    | none =>
      show htmlOK ""
      decide
    | some s =>
      match m with
      | none => exact escape_ok s
      | some ms =>
        by_cases hms : ms.isEmpty
        · simp only [hms, if_true]
          exact escape_ok s
        · simp only [hms, Bool.false_eq_true, if_false]
          rw [buildTags_eq]
          simp only [List.nil_append, List.append_nil]
          refine wrap_ok (strJoin_ok ?_) (strJoin_ok ?_) (escape_ok s)
          · intro x hx
            obtain ⟨p, hp, rfl⟩ := List.mem_map.mp hx
            obtain ⟨mm, _, hmm⟩ := List.mem_filterMap.mp hp
            exact (markTags_pair_ok hmm).1
          · intro x hx
            rw [List.mem_reverse] at hx
            obtain ⟨p, hp, rfl⟩ := List.mem_map.mp hx
            obtain ⟨mm, _, hmm⟩ := List.mem_filterMap.mp hp
            exact (markTags_pair_ok hmm).2

theorem processInline_ok (c : Option (List Node)) : htmlOK (processInline c) := by
  match c with
  | none =>
    show htmlOK ""
    decide
  | some l =>
    refine strJoin_ok (fun x hx => ?_)
    obtain ⟨ch, _, rfl⟩ := List.mem_map.mp hx
    exact processText_ok ch

theorem paragraphOut_ok (c : Option (List Node)) : htmlOK (paragraphOut c) := by
  simp only [paragraphOut]
  split_ifs
  · decide
  · exact wrap_ok (by decide) (by decide) (processInline_ok c)

theorem tagged_ok (tag content : String) (ho : htmlOK ("<" ++ tag ++ ">"))
    (hc : htmlOK ("</" ++ tag ++ ">")) (hi : htmlOK content) :
    htmlOK ("<" ++ tag ++ ">" ++ content ++ "</" ++ tag ++ ">") := by
  have h1 : "<" ++ tag ++ ">" ++ content ++ "</" ++ tag ++ ">"
      = ("<" ++ tag ++ ">") ++ content ++ ("</" ++ tag ++ ">") := by
    simp [String.append_assoc]
  rw [h1]
  exact wrap_ok ho hc hi

theorem headingOut_ok (a : Option NodeAttrs) (c : Option (List Node)) :
    htmlOK (headingOut a c) := by
  simp only [headingOut]
  split_ifs with h1 h2
  · decide
  · exact tagged_ok "h3" _ (by decide) (by decide) (processInline_ok c)
  · exact tagged_ok "h2" _ (by decide) (by decide) (processInline_ok c)

theorem processNodes_eq_map (l : List Node) : processNodes l = l.map processNode := by
  induction l with
  | nil => rfl
  | cons n ns ih => simp [processNodes, ih]

theorem sizeOf_child_lt (t : String) (a : Option NodeAttrs) (c : Option (List Node))
    (txt : Option String) (m : Option (List Mark)) {l : List Node} {ch : Node}
    (hc : c = some l) (hch : ch ∈ l) :
    sizeOf ch < sizeOf (Node.mk t a c txt m) := by
  subst hc
  have h1 : sizeOf ch < sizeOf l := List.sizeOf_lt_of_mem hch
  simp only [Node.mk.sizeOf_spec, Option.some.sizeOf_spec]
  omega

theorem bulletListOut_ok_of (c : Option (List Node))
    (h : ∀ l, c = some l → ∀ ch ∈ l, htmlOK (processNode ch)) :
    htmlOK (bulletListOut c) := by
  match c with
  | none =>
    show htmlOK ""
    decide
  | some l =>
    simp only [bulletListOut]
    split_ifs
    · decide
    · decide
    · refine wrap_ok (by decide) (by decide) (joinSep_ok (by decide) (fun x hx => ?_))
      have hx' := List.mem_of_mem_filter hx
      rw [processNodes_eq_map] at hx'
      obtain ⟨ch, hch, rfl⟩ := List.mem_map.mp hx'
      exact h l rfl ch hch

theorem listItemParts_ok {l : List Node} (h : ∀ ch ∈ l, htmlOK (processNode ch)) :
    ∀ p ∈ listItemParts l, htmlOK p := by
  induction l with
  | nil => simp [listItemParts]
  | cons ch rest ih =>
    intro p hp
    simp only [listItemParts, List.mem_cons] at hp
    rcases hp with rfl | hp
    · split_ifs
      · exact processInline_ok _
      · exact h ch (by simp)
    · exact ih (fun x hx => h x (by simp [hx])) p hp

theorem blockquoteParts_ok {l : List Node} (h : ∀ ch ∈ l, htmlOK (processNode ch)) :
    ∀ p ∈ blockquoteParts l, htmlOK p := by
  induction l with
  | nil => simp [blockquoteParts]
  | cons ch rest ih =>
    intro p hp
    simp only [blockquoteParts, List.mem_cons] at hp
    rcases hp with rfl | hp
    · split_ifs
      · exact processInline_ok _
      · exact h ch (by simp)
    · exact ih (fun x hx => h x (by simp [hx])) p hp

theorem listItemOut_ok_of (c : Option (List Node))
    (h : ∀ l, c = some l → ∀ ch ∈ l, htmlOK (processNode ch)) :
    htmlOK (listItemOut c) := by
  match c with
  | none =>
    show htmlOK ""
    decide
  | some l =>
    simp only [listItemOut]
    split_ifs
    · decide
    · refine wrap_ok (by decide) (by decide) (strJoin_ok (fun x hx => ?_))
      exact listItemParts_ok (h l rfl) x (List.mem_of_mem_filter hx)

theorem blockquoteOut_ok_of (c : Option (List Node))
    (h : ∀ l, c = some l → ∀ ch ∈ l, htmlOK (processNode ch)) :
    htmlOK (blockquoteOut c) := by
  match c with
  | none =>
    show htmlOK ""
    decide
  | some l =>
    simp only [blockquoteOut]
    split_ifs
    · decide
    · refine wrap_ok (by decide) (by decide) (joinSep_ok (by decide) (fun x hx => ?_))
      exact blockquoteParts_ok (h l rfl) x (List.mem_of_mem_filter hx)

theorem processNode_mk (t : String) (a : Option NodeAttrs) (c : Option (List Node))
    (txt : Option String) (m : Option (List Mark)) :
    processNode (Node.mk t a c txt m) =
      (if t = "" then ""
       else if t = "paragraph" then paragraphOut c
       else if t = "heading" then headingOut a c
       else if t = "bulletList" then bulletListOut c
       else if t = "listItem" then listItemOut c
       else if t = "blockquote" then blockquoteOut c
       else if t = "text" then processText (Node.mk t a c txt m)
       else match c with
         | some l => strJoin ((processNodes l).filter (· ≠ ""))
         | none => "") := by
  rw [processNode.eq_def]

theorem processNode_ok : ∀ n : Node, htmlOK (processNode n) := by
  suffices H : ∀ k, ∀ n : Node, sizeOf n ≤ k → htmlOK (processNode n) from
    fun n => H (sizeOf n) n le_rfl
  intro k
  induction k with
  | zero =>
    intro n h
    obtain ⟨t, a, c, txt, m⟩ := n
    simp only [Node.mk.sizeOf_spec] at h
    omega
  | succ k ih =>
    intro n hn
    obtain ⟨t, a, c, txt, m⟩ := n
    have hchild : ∀ l, c = some l → ∀ ch ∈ l, htmlOK (processNode ch) := by
      intro l hc ch hch
      refine ih ch ?_
      have := sizeOf_child_lt t a c txt m hc hch
      simp only [Node.mk.sizeOf_spec] at hn this
      omega
    rw [processNode_mk]
    split_ifs
    · decide
    · exact paragraphOut_ok c
    · exact headingOut_ok a c
    · exact bulletListOut_ok_of c hchild
    · exact listItemOut_ok_of c hchild
    · exact blockquoteOut_ok_of c hchild
    · exact processText_ok _
    · cases c with
      | none =>
        show htmlOK ""
        decide
      | some l =>
        refine strJoin_ok (fun x hx => ?_)
        have hx' := List.mem_of_mem_filter hx
        rw [processNodes_eq_map] at hx'
        obtain ⟨ch, hch, rfl⟩ := List.mem_map.mp hx'
        exact hchild l rfl ch hch

theorem generateCleanHTML_htmlOK (doc : Option Doc) : htmlOK (generateCleanHTML doc) := by
  match doc with
  | none =>
    show htmlOK ""
    decide
  | some json =>
    match json with
    | ⟨none⟩ =>
      show htmlOK ""
      decide
    | ⟨some nodes⟩ =>
      simp only [generateCleanHTML]
      refine joinSep_ok (by decide) (fun x hx => ?_)
      have hx' := List.mem_of_mem_filter hx
      rw [processNodes_eq_map] at hx'
      obtain ⟨ch, _, rfl⟩ := List.mem_map.mp hx'
      exact processNode_ok ch

/-- Claim C1, counterexample: a blockquote with two paragraphs is joined
with `<br>`, a tag outside the allowed set
`{p, h2, h3, ul, li, strong, em, a, code, blockquote}`. -/
theorem generateCleanHTML_emits_br :
    generateCleanHTML (some ⟨some [Node.mk "blockquote" none
        (some [paraNode [plainText "a"], paraNode [plainText "b"]]) none none]⟩) =
      "<blockquote>a<br>b</blockquote>" ∧
    "br" ∈ tagNames "<blockquote>a<br>b</blockquote>" ∧
    ¬ "br" ∈ ALLOWED_TAGS :=
  ⟨by decide, by decide, by decide⟩

/-- Claim C1 (amended): scanning the output of `generateCleanHTML`, every
tag name belongs to the allowed set or is the `br` separator emitted
between blockquote lines, and the text runs contain no raw `<` or `>` and
no `&` except at the start of one of the five escape entities (every tag
span also being properly closed). -/
theorem generateCleanHTML_tags_and_text_safe (doc : Option Doc) :
    (tagNames (generateCleanHTML doc)).all allowedBr = true ∧
    textRunsOK (generateCleanHTML doc) = true := by
  obtain ⟨h1, h2, _⟩ := generateCleanHTML_htmlOK doc
  exact ⟨h1, h2⟩

end BloggerEditor
